import Mathlib

/-!
# Snakie: a shallow embedding of `snakie.cpp`

The simulation step `UpdatePositions`, its helpers `UpdateTailPosition`,
`CheckGameOver`, `GenerateFruit`, and the control loop of `main` are
translated into Lean functions.

Conventions of the embedding.

* `int` is `Int`.  The only `int` arithmetic of the step adds `-1`, `0` or
  `1` to a head coordinate and clamps the sum; the sum leaves the range of
  `int` only from a coordinate at one of its two ends, and every coordinate a
  step returns lies in the clamp range.
* `unsigned int` is `Nat`, and `++` is taken modulo `2 ^ 32`.
* `vector<position>` is `List position`.  `operator[]` outside the bounds
  has no defined behaviour in C++: reads and writes are checked and the
  functions return `none` there.
* The globals `gameOver`, `score`, `prevChar` are fields of `World`.
* The random engine is an input: the two values that `movementX` and
  `movementY` yield are passed to `GenerateFruit`.
* The clock and the bytes that `read` delivers are inputs of a loop
  iteration (`Event`).
-/

namespace Snakie

/-! ## Constants -/

def NULL_CHAR : Char := 'z'
def UP_CHAR : Char := 'w'
def DOWN_CHAR : Char := 's'
def LEFT_CHAR : Char := 'a'
def RIGHT_CHAR : Char := 'd'
def QUIT_CHAR : Char := 'q'
def BLOCKING_CHAR : Char := 'b'
def COMMAND_CHAR : Char := 'o'
def EXIT_CHAR : Char := 'e'
def NEWLINE_CHAR : Char := Char.ofNat 10

def COLOUR_GREEN : Nat := 32
def COLOUR_MAGENTA : Nat := 35

def numRow : Int := 20
def numCol : Int := 40

/-- The modulus of `unsigned int` arithmetic. -/
def UINT_MOD : Nat := 4294967296

/-- Lower and upper ends of `movementX(2, 20)`. -/
def movementX_lo : Int := 2
def movementX_hi : Int := 20
/-- Lower and upper ends of `movementY(2, 40)`. -/
def movementY_lo : Int := 2
def movementY_hi : Int := 40

/-! ## Types -/

structure position where
  row : Int
  col : Int
deriving DecidableEq, Repr

/-- The struct `snakie`; its `float speed` is never read or written by the
simulation and is left out. -/
structure snakie where
  pos : position := ⟨1, 1⟩
  colour : Nat := COLOUR_GREEN
deriving DecidableEq, Repr

structure fruitie where
  pos : position := ⟨0, 0⟩
  color : Nat := COLOUR_MAGENTA
deriving DecidableEq, Repr

structure tail where
  pos : position := ⟨0, 0⟩
  tailVect : List position := [⟨0, 0⟩]
  previous : position := ⟨0, 0⟩
  secondPrevious : position := ⟨0, 0⟩
  tailLength : Nat := 1
  color : Nat := COLOUR_GREEN
deriving DecidableEq, Repr

/-- The data `UpdatePositions` works on: its three reference parameters and
the three globals `gameOver`, `score`, `prevChar`. -/
structure World where
  head : snakie
  fruit : fruitie
  snakeTail : tail
  gameOver : Bool
  score : Nat
  prevChar : Char
deriving DecidableEq, Repr

/-! ## Vector access -/

/-- The write `v[i] = x`, defined only inside the bounds. -/
def writeAt (v : List position) (i : Nat) (x : position) : Option (List position) :=
  if i < v.length then some (v.set i x) else none

/-! ## Snake logic -/

/-- The function `GenerateFruit`: `x` and `y` are the values `movementX(generator)` and
`movementY(generator)` yield. -/
def GenerateFruit (fruit : fruitie) (x y : Int) : fruitie :=
  { fruit with pos := ⟨x, y⟩ }

/-- The body of the `for` loop of `UpdateTailPosition`, at index `i`. -/
def UpdateTailPosition.body (snakeTail : tail) (i : Nat) : Option tail :=
  match snakeTail.tailVect[i]? with
  | none => none
  | some x =>
    let t1 := { snakeTail with secondPrevious := x }
    match writeAt t1.tailVect i t1.previous with
    | none => none
    | some v => some { t1 with tailVect := v, previous := t1.secondPrevious }

/-- The `for` loop of `UpdateTailPosition` with `n` iterations left, the next
one at index `i`. -/
def UpdateTailPosition.loop : Nat → Nat → tail → Option tail
  | 0, _, snakeTail => some snakeTail
  | n + 1, i, snakeTail =>
    match UpdateTailPosition.body snakeTail i with
    | none => none
    | some t => UpdateTailPosition.loop n (i + 1) t

/-- The function `UpdateTailPosition`: the loop runs for `i = 1, ..., tailLength - 1`. -/
def UpdateTailPosition (snakeTail : tail) : Option tail :=
  UpdateTailPosition.loop (snakeTail.tailLength - 1) 1 snakeTail

/-- The `for` loop of `CheckGameOver` with `n` iterations left, the next one
at index `i`; `gameOver` is the global. -/
def CheckGameOver.loop (s : snakie) (snakeTail : tail) : Nat → Nat → Bool → Option Bool
  | 0, _, gameOver => some gameOver
  | n + 1, i, gameOver =>
    match snakeTail.tailVect[i]? with
    | none => none
    | some x =>
      CheckGameOver.loop s snakeTail n (i + 1)
        (if x.row = s.pos.row ∧ x.col = s.pos.col then true else gameOver)

/-- The function `CheckGameOver`: the loop runs for `i = 1, ..., tailLength - 1`. -/
def CheckGameOver (s : snakie) (snakeTail : tail) (gameOver : Bool) : Option Bool :=
  CheckGameOver.loop s snakeTail (snakeTail.tailLength - 1) 1 gameOver

/-- The movement commands of `UpdatePositions`: the row change, the column
change and the new value of `prevChar`. -/
def command (prevChar currentChar : Char) : Int × Int × Char :=
  if currentChar = UP_CHAR then (0 - 1, 0, UP_CHAR)
  else if currentChar = DOWN_CHAR then (0 + 1, 0, DOWN_CHAR)
  else if currentChar = LEFT_CHAR then (0, 0 - 1, LEFT_CHAR)
  else if currentChar = RIGHT_CHAR then (0, 0 + 1, RIGHT_CHAR)
  else
    let r0 : Int := 0
    let c0 : Int := 0
    let r1 := if prevChar = UP_CHAR then r0 - 1 else r0
    let r2 := if prevChar = DOWN_CHAR then r1 + 1 else r1
    let c1 := if prevChar = LEFT_CHAR then c0 - 1 else c0
    let c2 := if prevChar = RIGHT_CHAR then c1 + 1 else c1
    (r2, c2, prevChar)

/-- The clamp `max(2, min(hi - 1, x))` of one axis. -/
def clampAxis (hi x : Int) : Int := max 2 (min (hi - 1) x)

/-- The function `UpdatePositions`; `rx`, `ry` are the values the random source yields
when `GenerateFruit` is called. -/
def UpdatePositions (w : World) (currentChar : Char) (rx ry : Int) : Option World :=
  let cmd := command w.prevChar currentChar
  let proposedRow := w.head.pos.row + cmd.1
  let proposedCol := w.head.pos.col + cmd.2.1
  match w.snakeTail.tailVect[0]? with
  | none => none
  | some first =>
    let t1 := { w.snakeTail with previous := first }
    let head1 : snakie :=
      { w.head with pos := ⟨clampAxis numRow proposedRow, clampAxis numCol proposedCol⟩ }
    let eaten : Bool :=
      decide (head1.pos.row = w.fruit.pos.row ∧ head1.pos.col = w.fruit.pos.col)
    let fruit1 := if eaten then GenerateFruit w.fruit rx ry else w.fruit
    let score1 := if eaten then (w.score + 1) % UINT_MOD else w.score
    let t2 :=
      if eaten then
        { t1 with tailLength := (t1.tailLength + 1) % UINT_MOD,
                  tailVect := t1.tailVect ++ [⟨0, 0⟩] }
      else t1
    match UpdateTailPosition t2 with
    | none => none
    | some t3 =>
      match writeAt t3.tailVect 0 head1.pos with
      | none => none
      | some v =>
        let t4 := { t3 with tailVect := v }
        match CheckGameOver head1 t4 w.gameOver with
        | none => none
        | some g =>
          some { head := head1, fruit := fruit1, snakeTail := t4,
                 gameOver := g, score := score1, prevChar := cmd.2.2 }

/-- The world `main` creates before its loop: `fx`, `fy` are the two values
drawn for the first fruit; `prevChar` is a zero-initialised global. -/
def initWorld (fx fy : Int) : World :=
  { head := { pos := ⟨1, 1⟩, colour := COLOUR_GREEN },
    fruit := { pos := ⟨fx, fy⟩ },
    snakeTail := {},
    gameOver := false,
    score := 0,
    prevChar := Char.ofNat 0 }

/-- Runs `UpdatePositions` over a list of inputs, each an input symbol with
the two values of the random source. -/
def runSteps : World → List (Char × Int × Int) → Option World
  | w, [] => some w
  | w, (c, rx, ry) :: rest =>
    match UpdatePositions w c rx ry with
    | none => none
    | some w1 => runSteps w1 rest

/-! ## The loop of `main` -/

def CLEAR_CHAR : Char := 'c'

/-- The tick interval `elapsedTimePerTick`, in milliseconds. -/
def elapsedTimePerTick : Int := 100

/-- The string `"resume"`, as the list of its characters. -/
def RESUME : List Char := ['r', 'e', 's', 'u', 'm', 'e']

/-- Where control is in `main`: in the first `while` loop, in the second
`while` loop (the one that calls `GameOverDisplay` and waits for the exit
symbol), or past it (`main` returns). -/
inductive Phase where
  | Running
  | GameOver
  | Terminated
deriving DecidableEq, Repr

/-- The local variables of `main` with the world.  `gameOverDisplays` counts
the calls of `GameOverDisplay`, the only trace kept of the screen output;
`ticks` is the variable of that name, incremented right before each call of
`UpdatePositions`. -/
structure Machine where
  phase : Phase
  world : World
  ticks : Nat
  currentChar : Char
  currentCommand : List Char
  allowBackgroundProcessing : Bool
  showCommandline : Bool
  startTimestamp : Int
  gameOverDisplays : Nat
deriving DecidableEq, Repr

/-- What the environment supplies to one loop iteration: the reading of the
clock in milliseconds, the two values the random source yields if asked, and
the bytes `read` delivers, in order. -/
structure Event where
  now : Int
  rx : Int
  ry : Int
  input : List Char
deriving DecidableEq, Repr

/-- The input block at the end of both loops: in command-line mode the
characters up to the newline are appended to `currentCommand` and
`currentChar` is reset; otherwise one `read` into `currentChar`, which keeps
its value when nothing is delivered. -/
def readInput (m : Machine) (input : List Char) : Machine :=
  if m.showCommandline then
    { m with currentCommand := m.currentCommand ++ input.takeWhile (fun c => c ≠ NEWLINE_CHAR),
             currentChar := NULL_CHAR }
  else
    match input.head? with
    | some c => { m with currentChar := c }
    | none => m

/-- The condition of the `if` that gates a tick. -/
def due (m : Machine) (e : Event) : Bool :=
  (m.allowBackgroundProcessing && decide (e.now - m.startTimestamp ≥ elapsedTimePerTick))
    || !m.allowBackgroundProcessing

/-- The body of the `if` that gates a tick. -/
def tick (m : Machine) (e : Event) : Option Machine :=
  let ticks1 := (m.ticks + 1) % UINT_MOD
  let abp1 :=
    if m.currentChar = BLOCKING_CHAR then !m.allowBackgroundProcessing
    else m.allowBackgroundProcessing
  let abp2 := if m.currentChar = COMMAND_CHAR then false else abp1
  let scl1 := if m.currentChar = COMMAND_CHAR then true else m.showCommandline
  let scl2 := if m.currentCommand = RESUME then false else scl1
  match UpdatePositions m.world m.currentChar e.rx e.ry with
  | none => none
  | some w =>
    some { m with world := w, ticks := ticks1, allowBackgroundProcessing := abp2,
                  showCommandline := scl2, startTimestamp := e.now,
                  currentChar := NULL_CHAR, currentCommand := [] }

/-- One test of a loop condition of `main`, with the loop body when the test
succeeds. -/
def step (m : Machine) (e : Event) : Option Machine :=
  match m.phase with
  | Phase.Running =>
    if m.currentChar ≠ QUIT_CHAR ∧ m.world.gameOver = false then
      if due m e then
        match tick m e with
        | none => none
        | some m1 => some (readInput m1 e.input)
      else some (readInput m e.input)
    else some { m with phase := Phase.GameOver }
  | Phase.GameOver =>
    if m.currentChar ≠ EXIT_CHAR then
      some (readInput { m with gameOverDisplays := m.gameOverDisplays + 1 } e.input)
    else some { m with phase := Phase.Terminated }
  | Phase.Terminated => some m

/-- Runs `step` over a list of events. -/
def runMachine : Machine → List Event → Option Machine
  | m, [] => some m
  | m, e :: rest =>
    match step m e with
    | none => none
    | some m1 => runMachine m1 rest

/-- The state of `main` when it enters its first loop; `t0` is the first
reading of the clock. -/
def initMachine (fx fy t0 : Int) : Machine :=
  { phase := Phase.Running, world := initWorld fx fy, ticks := 0,
    currentChar := CLEAR_CHAR, currentCommand := [],
    allowBackgroundProcessing := true, showCommandline := false,
    startTimestamp := t0, gameOverDisplays := 0 }

/-! ## Vocabulary of the statements -/

/-- The head position a step computes: the clamped proposed position. -/
def newHead (w : World) (currentChar : Char) : position :=
  ⟨clampAxis numRow (w.head.pos.row + (command w.prevChar currentChar).1),
   clampAxis numCol (w.head.pos.col + (command w.prevChar currentChar).2.1)⟩

/-- The step lands the head on the fruit. -/
def eats (w : World) (currentChar : Char) : Bool :=
  decide ((newHead w currentChar).row = w.fruit.pos.row ∧
    (newHead w currentChar).col = w.fruit.pos.col)

/-- The vector is not empty and `tailLength` does not exceed its size: every
index the step uses is inside the vector. -/
def InBounds (w : World) : Prop :=
  1 ≤ w.snakeTail.tailVect.length ∧ w.snakeTail.tailLength ≤ w.snakeTail.tailVect.length

instance (w : World) : Decidable (InBounds w) := by
  unfold InBounds
  infer_instance

/-- The relation between a world `w` and the world `w1` a step with input
`currentChar` and random values `rx`, `ry` returns. -/
structure StepSpec (w : World) (currentChar : Char) (rx ry : Int) (w1 : World) : Prop where
  nonempty : 1 ≤ w.snakeTail.tailVect.length
  head_eq : w1.head = { w.head with pos := newHead w currentChar }
  prevChar_eq : w1.prevChar = (command w.prevChar currentChar).2.2
  fruit_eq : w1.fruit = if eats w currentChar then GenerateFruit w.fruit rx ry else w.fruit
  score_eq : w1.score = if eats w currentChar then (w.score + 1) % UINT_MOD else w.score
  tailLength_eq : w1.snakeTail.tailLength =
    if eats w currentChar then (w.snakeTail.tailLength + 1) % UINT_MOD
    else w.snakeTail.tailLength
  length_eq : w1.snakeTail.tailVect.length =
    if eats w currentChar then w.snakeTail.tailVect.length + 1
    else w.snakeTail.tailVect.length
  tailLength_le : w1.snakeTail.tailLength ≤ w1.snakeTail.tailVect.length
  first_eq : w1.snakeTail.tailVect[0]? = some (newHead w currentChar)
  follow : ∀ j, 1 ≤ j → j < w1.snakeTail.tailLength →
    w1.snakeTail.tailVect[j]? = w.snakeTail.tailVect[j - 1]?
  beyond : ∀ j, 1 ≤ j → w1.snakeTail.tailLength ≤ j →
    w1.snakeTail.tailVect[j]? =
      (if eats w currentChar then w.snakeTail.tailVect ++ [⟨0, 0⟩]
       else w.snakeTail.tailVect)[j]?
  gameOver_iff : w1.gameOver = true ↔
    w.gameOver = true ∨
      ∃ j, 1 ≤ j ∧ j < w1.snakeTail.tailLength ∧
        w1.snakeTail.tailVect[j]? = some (newHead w currentChar)

/-- The proposed head position of a step: the head plus the direction
delta, before the clamp. -/
def proposed (w : World) (currentChar : Char) : position :=
  ⟨w.head.pos.row + (command w.prevChar currentChar).1,
   w.head.pos.col + (command w.prevChar currentChar).2.1⟩

/-- The position lies in the clamp range `[2, numRow - 1] x [2, numCol - 1]`. -/
def inClampRange (p : position) : Prop :=
  2 ≤ p.row ∧ p.row ≤ numRow - 1 ∧ 2 ≤ p.col ∧ p.col ≤ numCol - 1

instance (p : position) : Decidable (inClampRange p) := by
  unfold inClampRange
  infer_instance

/-- The unit delta of a direction symbol, as `(row change, column change)`. -/
def delta (d : Char) : Int × Int :=
  if d = UP_CHAR then (-1, 0)
  else if d = DOWN_CHAR then (1, 0)
  else if d = LEFT_CHAR then (0, -1)
  else if d = RIGHT_CHAR then (0, 1)
  else (0, 0)

/-- The symbol is one of the four direction symbols. -/
def isDirection (d : Char) : Prop :=
  d = UP_CHAR ∨ d = DOWN_CHAR ∨ d = LEFT_CHAR ∨ d = RIGHT_CHAR

instance (d : Char) : Decidable (isDirection d) := by
  unfold isDirection
  infer_instance

/-- The clamp of a position, axis by axis. -/
def clampPos (row col : Int) : position :=
  ⟨clampAxis numRow row, clampAxis numCol col⟩

/-- The inputs of `n` steps without input symbol, one per pair of random
values. -/
def noInput (rs : List (Int × Int)) : List (Char × Int × Int) :=
  rs.map (fun r => (NULL_CHAR, r.1, r.2))

/-- The worlds `main` can hold at a test of its first loop: the initial
world, and each world a step returns from a reachable world with `gameOver`
false (the loop runs no step once the flag is set). -/
inductive Reachable : World → Prop where
  | init (fx fy : Int) : Reachable (initWorld fx fy)
  | step (w w1 : World) (c : Char) (rx ry : Int) :
      Reachable w → w.gameOver = false → UpdatePositions w c rx ry = some w1 → Reachable w1

/-- The invariant of the reachable worlds: `tailLength` is the size of the
vector, `score` is one less, every body cell is the placeholder `(0, 0)` or
lies in the clamp range, and the body cells are pairwise distinct while
`gameOver` is false. -/
def Inv (w : World) : Prop :=
  w.snakeTail.tailLength = w.snakeTail.tailVect.length ∧
  1 ≤ w.snakeTail.tailVect.length ∧
  w.score + 1 = w.snakeTail.tailLength ∧
  (∀ p ∈ w.snakeTail.tailVect, p = ⟨0, 0⟩ ∨ inClampRange p) ∧
  (w.gameOver = false → w.snakeTail.tailVect.Nodup)

/-! ## Concrete worlds -/

/-- A world with one body segment, the head on `(5, 5)` moving right and the
fruit on the next cell `(5, 6)`. -/
def beforeFruit (score : Nat) : World :=
  { head := { pos := ⟨5, 5⟩ },
    fruit := { pos := ⟨5, 6⟩ },
    snakeTail := { tailVect := [⟨5, 5⟩] },
    gameOver := false,
    score := score,
    prevChar := RIGHT_CHAR }

/-- A world with three body segments in a row, the head on `(5, 5)` moving
right and the fruit far away. -/
def threeLong : World :=
  { head := { pos := ⟨5, 5⟩ },
    fruit := { pos := ⟨9, 9⟩ },
    snakeTail := { tailVect := [⟨5, 5⟩, ⟨5, 4⟩, ⟨5, 3⟩], tailLength := 3 },
    gameOver := false,
    score := 2,
    prevChar := RIGHT_CHAR }

/-! ## The two loops -/

theorem UpdateTailPosition.body_eq (t : tail) (i : Nat) (x : position)
    (hx : t.tailVect[i]? = some x) :
    UpdateTailPosition.body t i =
      some { t with secondPrevious := x, tailVect := t.tailVect.set i t.previous,
                    previous := x } := by
  have hi : i < t.tailVect.length := by
    obtain ⟨h, _⟩ := List.getElem?_eq_some.mp hx
    exact h
  simp [UpdateTailPosition.body, hx, writeAt, hi]

/-- What the follow loop computes when its `n` indices `i, ..., i + n - 1`
are inside the vector: the vector keeps its length, the entries below `i`
and from `i + n` on are kept, entry `i` takes `previous`, and each entry
`j` with `i < j < i + n` takes the old entry `j - 1`. -/
theorem UpdateTailPosition.follow_loop_spec (n : Nat) :
    ∀ (i : Nat) (t : tail), i + n ≤ t.tailVect.length →
      ∃ t1, UpdateTailPosition.loop n i t = some t1 ∧
        t1.tailVect.length = t.tailVect.length ∧
        t1.tailLength = t.tailLength ∧
        t1.pos = t.pos ∧ t1.color = t.color ∧
        (∀ j, j < i → t1.tailVect[j]? = t.tailVect[j]?) ∧
        (∀ j, i + n ≤ j → t1.tailVect[j]? = t.tailVect[j]?) ∧
        (0 < n → t1.tailVect[i]? = some t.previous) ∧
        (∀ j, i < j → j < i + n → t1.tailVect[j]? = t.tailVect[j - 1]?) := by
  induction n with
  | zero =>
    intro i t _
    refine ⟨t, rfl, rfl, rfl, rfl, rfl, fun _ _ => rfl, fun _ _ => rfl, ?_, ?_⟩
    · intro h; omega
    · intro j h1 h2; omega
  | succ n ih =>
    intro i t hb
    have hi : i < t.tailVect.length := by omega
    have hx : t.tailVect[i]? = some t.tailVect[i] := List.getElem?_eq_getElem hi
    obtain ⟨t1, hl, hlen, htl, hpos, hcol, hlow, hhigh, hat, hmid⟩ :=
      ih (i + 1)
        { t with secondPrevious := t.tailVect[i],
                 tailVect := t.tailVect.set i t.previous, previous := t.tailVect[i] }
        (by simp only [List.length_set]; omega)
    refine ⟨t1, ?_, ?_, htl, hpos, hcol, ?_, ?_, ?_, ?_⟩
    · simp only [UpdateTailPosition.loop, UpdateTailPosition.body_eq t i _ hx]
      exact hl
    · rw [hlen, List.length_set]
    · intro j hj
      rw [hlow j (by omega)]
      exact List.getElem?_set_ne (by omega)
    · intro j hj
      rw [hhigh j (by omega)]
      exact List.getElem?_set_ne (by omega)
    · intro _
      rw [hlow i (by omega)]
      exact List.getElem?_set_self hi
    · intro j h1 h2
      by_cases hj : j = i + 1
      · subst hj
        rw [hat (by omega)]
        exact hx.symm
      · rw [hmid j (by omega) (by omega)]
        exact List.getElem?_set_ne (by omega)

/-- What the collision loop computes when its `n` indices `i, ..., i + n - 1`
are inside the vector. -/
theorem CheckGameOver.check_loop_spec (s : snakie) (t : tail) (n : Nat) :
    ∀ (i : Nat) (g : Bool), i + n ≤ t.tailVect.length →
      ∃ g1, CheckGameOver.loop s t n i g = some g1 ∧
        (g1 = true ↔
          g = true ∨ ∃ j, i ≤ j ∧ j < i + n ∧ t.tailVect[j]? = some s.pos) := by
  induction n with
  | zero =>
    intro i g _
    refine ⟨g, rfl, ?_⟩
    constructor
    · intro h; exact Or.inl h
    · rintro (h | ⟨j, h1, h2, _⟩)
      · exact h
      · omega
  | succ n ih =>
    intro i g hb
    have hi : i < t.tailVect.length := by omega
    have hx : t.tailVect[i]? = some t.tailVect[i] := List.getElem?_eq_getElem hi
    obtain ⟨g1, hl, hg⟩ :=
      ih (i + 1)
        (if (t.tailVect[i]).row = s.pos.row ∧ (t.tailVect[i]).col = s.pos.col
          then true else g) (by omega)
    refine ⟨g1, ?_, ?_⟩
    · simp only [CheckGameOver.loop, hx]
      exact hl
    · rw [hg]
      have hpos : ((t.tailVect[i]).row = s.pos.row ∧ (t.tailVect[i]).col = s.pos.col) ↔
          t.tailVect[i]? = some s.pos := by
        rw [hx]
        constructor
        · rintro ⟨h1, h2⟩
          congr 1
          cases hp : t.tailVect[i]
          cases hq : s.pos
          simp_all
        · intro h
          have h3 : t.tailVect[i] = s.pos := Option.some.inj h
          rw [h3]
          exact ⟨rfl, rfl⟩
      constructor
      · rintro (h | ⟨j, h1, h2, h3⟩)
        · by_cases hc : (t.tailVect[i]).row = s.pos.row ∧ (t.tailVect[i]).col = s.pos.col
          · exact Or.inr ⟨i, le_refl _, by omega, hpos.mp hc⟩
          · rw [if_neg hc] at h
            exact Or.inl h
        · exact Or.inr ⟨j, by omega, by omega, h3⟩
      · rintro (h | ⟨j, h1, h2, h3⟩)
        · by_cases hc : (t.tailVect[i]).row = s.pos.row ∧ (t.tailVect[i]).col = s.pos.col
          · left; rw [if_pos hc]
          · left; rw [if_neg hc]; exact h
        · by_cases hj : j = i
          · subst hj
            left
            rw [if_pos (hpos.mpr h3)]
          · exact Or.inr ⟨j, by omega, by omega, h3⟩

/-- The follow update, the write of the head into entry `0` and the collision
check, run one after the other on a tail whose vector is not empty and at
least `tailLength` long. -/
theorem tail_phase (t2 : tail) (s : snakie) (g : Bool)
    (h1 : 1 ≤ t2.tailVect.length) (h2 : t2.tailLength ≤ t2.tailVect.length) :
    ∃ t3 v g1, UpdateTailPosition t2 = some t3 ∧
      writeAt t3.tailVect 0 s.pos = some v ∧
      CheckGameOver s { t3 with tailVect := v } g = some g1 ∧
      v.length = t2.tailVect.length ∧
      t3.tailLength = t2.tailLength ∧
      v[0]? = some s.pos ∧
      (1 < t2.tailLength → v[1]? = some t2.previous) ∧
      (∀ j, 1 < j → j < t2.tailLength → v[j]? = t2.tailVect[j - 1]?) ∧
      (∀ j, 1 ≤ j → t2.tailLength ≤ j → v[j]? = t2.tailVect[j]?) ∧
      (g1 = true ↔
        g = true ∨ ∃ j, 1 ≤ j ∧ j < t2.tailLength ∧ v[j]? = some s.pos) := by
  obtain ⟨t3, hl, hlen, htl, _, _, _, hhigh, hat, hmid⟩ :=
    UpdateTailPosition.follow_loop_spec (t2.tailLength - 1) 1 t2 (by omega)
  have h0 : 0 < t3.tailVect.length := by omega
  obtain ⟨g1, hc, hg⟩ :=
    CheckGameOver.check_loop_spec s { t3 with tailVect := t3.tailVect.set 0 s.pos }
      (t3.tailLength - 1) 1 g (by simp only [List.length_set]; omega)
  have hne : ∀ j, 1 ≤ j → (t3.tailVect.set 0 s.pos)[j]? = t3.tailVect[j]? := by
    intro j hj
    exact List.getElem?_set_ne (by omega)
  refine ⟨t3, t3.tailVect.set 0 s.pos, g1, hl, ?_, ?_, ?_, htl, ?_, ?_, ?_, ?_, ?_⟩
  · simp [writeAt, h0]
  · exact hc
  · rw [List.length_set, hlen]
  · exact List.getElem?_set_self h0
  · intro h
    rw [hne 1 (le_refl _)]
    exact hat (by omega)
  · intro j hj1 hj2
    rw [hne j (by omega)]
    exact hmid j hj1 (by omega)
  · intro j hj1 hj2
    rw [hne j hj1]
    exact hhigh j (by omega)
  · rw [hg]
    constructor
    · rintro (h | ⟨j, hj1, hj2, hj3⟩)
      · exact Or.inl h
      · exact Or.inr ⟨j, hj1, by omega, hj3⟩
    · rintro (h | ⟨j, hj1, hj2, hj3⟩)
      · exact Or.inl h
      · exact Or.inr ⟨j, hj1, by omega, hj3⟩

/-- The follow loop returns a result only if its indices are inside the
vector. -/
theorem UpdateTailPosition.follow_loop_some (n : Nat) :
    ∀ (i : Nat) (t t1 : tail), UpdateTailPosition.loop n i t = some t1 →
      n = 0 ∨ i + n ≤ t.tailVect.length := by
  induction n with
  | zero => intro _ _ _ _; exact Or.inl rfl
  | succ n ih =>
    intro i t t1 h
    right
    cases hx : t.tailVect[i]? with
    | none => simp [UpdateTailPosition.loop, UpdateTailPosition.body, hx] at h
    | some x =>
      have hi : i < t.tailVect.length := by
        obtain ⟨h, _⟩ := List.getElem?_eq_some.mp hx
        exact h
      rw [UpdateTailPosition.loop, UpdateTailPosition.body_eq t i x hx] at h
      rcases ih (i + 1) _ t1 h with h0 | h1
      · omega
      · simp only [List.length_set] at h1
        omega

/-- The facts of `tail_phase`, for given results of the three calls. -/
theorem tail_phase_some (t2 : tail) (s : snakie) (g : Bool) (t3 : tail) (v : List position)
    (g1 : Bool) (h1 : 1 ≤ t2.tailVect.length)
    (hu : UpdateTailPosition t2 = some t3)
    (hv : writeAt t3.tailVect 0 s.pos = some v)
    (hg : CheckGameOver s { t3 with tailVect := v } g = some g1) :
    t2.tailLength ≤ t2.tailVect.length ∧
      v.length = t2.tailVect.length ∧
      t3.tailLength = t2.tailLength ∧
      v[0]? = some s.pos ∧
      (1 < t2.tailLength → v[1]? = some t2.previous) ∧
      (∀ j, 1 < j → j < t2.tailLength → v[j]? = t2.tailVect[j - 1]?) ∧
      (∀ j, 1 ≤ j → t2.tailLength ≤ j → v[j]? = t2.tailVect[j]?) ∧
      (g1 = true ↔
        g = true ∨ ∃ j, 1 ≤ j ∧ j < t2.tailLength ∧ v[j]? = some s.pos) := by
  have h2 : t2.tailLength ≤ t2.tailVect.length := by
    rcases UpdateTailPosition.follow_loop_some _ _ _ _ hu with h0 | h0 <;> omega
  obtain ⟨t3a, va, ga, hua, hva, hga, r1, r2, r3, r4, r5, r6, r7⟩ := tail_phase t2 s g h1 h2
  rw [hu] at hua
  cases hua
  rw [hv] at hva
  cases hva
  rw [hg] at hga
  cases hga
  exact ⟨h2, r1, r2, r3, r4, r5, r6, r7⟩

/-- Every result of `UpdatePositions` is related to its argument by
`StepSpec`. -/
theorem UpdatePositions_some (w : World) (c : Char) (rx ry : Int) (w1 : World)
    (h : UpdatePositions w c rx ry = some w1) : StepSpec w c rx ry w1 := by
  unfold UpdatePositions at h
  cases hf : w.snakeTail.tailVect[0]? with
  | none => simp [hf] at h
  | some first =>
    have hlen : 0 < w.snakeTail.tailVect.length := by
      obtain ⟨h, _⟩ := List.getElem?_eq_some.mp hf
      exact h
    simp only [hf] at h
    split at h
    · exact absurd h (by simp)
    · rename_i t3 hu
      split at h
      · exact absurd h (by simp)
      · rename_i v hv
        split at h
        · exact absurd h (by simp)
        · rename_i g hg
          have hw : _ = w1 := Option.some.inj h
          subst hw
          have F := tail_phase_some _ ⟨newHead w c, w.head.colour⟩ w.gameOver t3 v g ?_ hu hv hg
          · obtain ⟨f1, f2, f3, f4, f5, f6, f7, f8⟩ := F
            cases he : eats w c
            · have hd : decide
                  (clampAxis numRow (w.head.pos.row + (command w.prevChar c).1) =
                      w.fruit.pos.row ∧
                    clampAxis numCol (w.head.pos.col + (command w.prevChar c).2.1) =
                      w.fruit.pos.col) = false := he
              simp only [hd, Bool.false_eq_true, if_false] at f1 f2 f3 f5 f6 f7 f8 ⊢
              refine ⟨hlen, rfl, rfl, ?_, ?_, ?_, ?_, ?_, f4, ?_, ?_, ?_⟩
              · simp [he]
              · simp [he]
              · simp [he, f3]
              · simp [he, f2]
              · simp only [f3, f2]; exact f1
              · intro j hj1 hj2
                simp only [f3] at hj2
                by_cases hj : j = 1
                · subst hj
                  simp only [f5 hj2, hf]
                · exact f6 j (by omega) hj2
              · intro j hj1 hj2
                simp only [f3] at hj2
                simp only [he, Bool.false_eq_true, if_false]
                exact f7 j hj1 hj2
              · simp only [f3]
                exact f8
            · have hd : decide
                  (clampAxis numRow (w.head.pos.row + (command w.prevChar c).1) =
                      w.fruit.pos.row ∧
                    clampAxis numCol (w.head.pos.col + (command w.prevChar c).2.1) =
                      w.fruit.pos.col) = true := he
              simp only [hd, if_true] at f1 f2 f3 f5 f6 f7 f8 ⊢
              simp only [List.length_append, List.length_singleton] at f1 f2
              refine ⟨hlen, rfl, rfl, ?_, ?_, ?_, ?_, ?_, f4, ?_, ?_, ?_⟩
              · simp [he]
              · simp [he]
              · simp [he, f3]
              · simp [he, f2]
              · simp only [f3, f2]; exact f1
              · intro j hj1 hj2
                simp only [f3] at hj2
                by_cases hj : j = 1
                · subst hj
                  simp only [f5 hj2, hf]
                · rw [f6 j (by omega) hj2]
                  exact List.getElem?_append_left (by omega)
              · intro j hj1 hj2
                simp only [f3] at hj2
                simp only [he, if_true]
                exact f7 j hj1 hj2
              · simp only [f3]
                exact f8
          · split
            · simp
            · simp only []
              omega

/-- The step returns a world on every in-bounds world. -/
theorem UpdatePositions_defined (w : World) (c : Char) (rx ry : Int) (hb : InBounds w) :
    ∃ w1, UpdatePositions w c rx ry = some w1 := by
  obtain ⟨h1, h2⟩ := hb
  have hf : w.snakeTail.tailVect[0]? = some w.snakeTail.tailVect[0] :=
    List.getElem?_eq_getElem (by omega)
  unfold UpdatePositions
  simp only [hf]
  cases he : decide
      (clampAxis numRow (w.head.pos.row + (command w.prevChar c).1) = w.fruit.pos.row ∧
        clampAxis numCol (w.head.pos.col + (command w.prevChar c).2.1) = w.fruit.pos.col)
  · obtain ⟨t3, v, g1, hu, hv, hg, _⟩ :=
      tail_phase { w.snakeTail with previous := w.snakeTail.tailVect[0] }
        ⟨newHead w c, w.head.colour⟩ w.gameOver h1 h2
    have hv1 : writeAt t3.tailVect 0 (newHead w c) = some v := hv
    simp only [Bool.false_eq_true, if_false, hu, newHead] at hv1 hg ⊢
    simp only [hv1, hg]
    exact ⟨_, rfl⟩
  · have hm : (w.snakeTail.tailLength + 1) % UINT_MOD ≤ w.snakeTail.tailVect.length + 1 :=
      le_trans (Nat.mod_le _ _) (by omega)
    obtain ⟨t3, v, g1, hu, hv, hg, _⟩ :=
      tail_phase
        { w.snakeTail with previous := w.snakeTail.tailVect[0],
                           tailLength := (w.snakeTail.tailLength + 1) % UINT_MOD,
                           tailVect := w.snakeTail.tailVect ++ [⟨0, 0⟩] }
        ⟨newHead w c, w.head.colour⟩ w.gameOver (by simp)
        (by simpa using hm)
    have hv1 : writeAt t3.tailVect 0 (newHead w c) = some v := hv
    simp only [if_true, hu, newHead] at hv1 hg ⊢
    simp only [hv1, hg]
    exact ⟨_, rfl⟩

/-- The clamp of an axis lands between `2` and `hi - 1`. -/
theorem clampAxis_range (hi x : Int) (h : 3 ≤ hi) :
    2 ≤ clampAxis hi x ∧ clampAxis hi x ≤ hi - 1 := by
  unfold clampAxis
  constructor
  · exact le_max_left _ _
  · exact max_le (by omega) (min_le_left _ _)

theorem eats_iff (w : World) (c : Char) :
    eats w c = true ↔ newHead w c = w.fruit.pos := by
  unfold eats
  rw [decide_eq_true_iff]
  constructor
  · rintro ⟨h1, h2⟩
    cases hp : newHead w c
    cases hq : w.fruit.pos
    simp_all
  · intro h
    rw [h]
    exact ⟨rfl, rfl⟩

/-- The two changes of `command` are in `{-1, 0, 1}` and one of them
is `0`. -/
theorem command_unit (p c : Char) :
    ((command p c).1 = 0 ∧
        ((command p c).2.1 = -1 ∨ (command p c).2.1 = 0 ∨ (command p c).2.1 = 1)) ∨
      ((command p c).2.1 = 0 ∧
        ((command p c).1 = -1 ∨ (command p c).1 = 0 ∨ (command p c).1 = 1)) := by
  unfold command
  split_ifs <;> simp_all [UP_CHAR, DOWN_CHAR, LEFT_CHAR, RIGHT_CHAR]

/-- A direction symbol sets the changes to its delta and is remembered. -/
theorem command_direction (p d : Char) (hd : isDirection d) :
    command p d = ((delta d).1, (delta d).2, d) := by
  rcases hd with h | h | h | h <;> subst h <;> rfl

/-- Without input symbol the remembered direction gives the changes and
stays remembered. -/
theorem command_sticky (d : Char) (hd : isDirection d) :
    command d NULL_CHAR = ((delta d).1, (delta d).2, d) := by
  rcases hd with h | h | h | h <;> subst h <;> rfl

/-- After a step the world is in bounds. -/
theorem StepSpec.inBounds {w : World} {c : Char} {rx ry : Int} {w1 : World}
    (S : StepSpec w c rx ry w1) : InBounds w1 := by
  refine ⟨?_, S.tailLength_le⟩
  rw [S.length_eq]
  have := S.nonempty
  split <;> omega

/-- One step without input symbol on an in-bounds world that remembers the
direction `d`. -/
theorem sticky_step (w : World) (d : Char) (rx ry : Int) (hd : isDirection d)
    (hb : InBounds w) (hp : w.prevChar = d) :
    ∃ w1, UpdatePositions w NULL_CHAR rx ry = some w1 ∧ InBounds w1 ∧ w1.prevChar = d ∧
      w1.head.pos = clampPos (w.head.pos.row + (delta d).1) (w.head.pos.col + (delta d).2) := by
  obtain ⟨w1, h⟩ := UpdatePositions_defined w NULL_CHAR rx ry hb
  have S := UpdatePositions_some w NULL_CHAR rx ry w1 h
  refine ⟨w1, h, S.inBounds, ?_, ?_⟩
  · rw [S.prevChar_eq, hp, command_sticky d hd]
  · rw [S.head_eq]
    simp only [newHead, hp, command_sticky d hd, clampPos]

/-- Steps without input symbol keep an in-bounds world in bounds and keep
the remembered direction `d`. -/
theorem sticky_run (d : Char) (hd : isDirection d) :
    ∀ (rs : List (Int × Int)) (w : World), InBounds w → w.prevChar = d →
      ∃ w1, runSteps w (noInput rs) = some w1 ∧ InBounds w1 ∧ w1.prevChar = d := by
  intro rs
  induction rs with
  | nil => intro w hb hp; exact ⟨w, rfl, hb, hp⟩
  | cons r rest ih =>
    intro w hb hp
    obtain ⟨w1, h1, hb1, hp1, _⟩ := sticky_step w d r.1 r.2 hd hb hp
    obtain ⟨w2, h2, hb2, hp2⟩ := ih w1 hb1 hp1
    refine ⟨w2, ?_, hb2, hp2⟩
    simp only [noInput, List.map_cons, runSteps, h1]
    exact h2

/-- A step that proposes a head outside the clamp range from a head inside
it leaves the head where it is. -/
theorem newHead_at_wall (w : World) (c : Char) (hin : inClampRange w.head.pos)
    (hout : ¬ inClampRange (proposed w c)) : newHead w c = w.head.pos := by
  have hu := command_unit w.prevChar c
  unfold inClampRange at hin hout
  simp only [proposed, numRow, numCol] at hin hout
  have hr : clampAxis numRow (w.head.pos.row + (command w.prevChar c).1) = w.head.pos.row := by
    simp only [clampAxis, numRow, max_def, min_def]
    split_ifs <;> omega
  have hc : clampAxis numCol (w.head.pos.col + (command w.prevChar c).2.1) = w.head.pos.col := by
    simp only [clampAxis, numCol, max_def, min_def]
    split_ifs <;> omega
  simp only [newHead, hr, hc]

/-- The initial world of `main` is in bounds. -/
theorem initWorld_inBounds (fx fy : Int) : InBounds (initWorld fx fy) :=
  ⟨le_refl _, le_refl _⟩

/-- The world a step returns is in bounds, has the head in entry `0` of the
vector and the head in the clamp range. -/
theorem after_step (w : World) (c : Char) (rx ry : Int) (w1 : World)
    (h : UpdatePositions w c rx ry = some w1) :
    InBounds w1 ∧ w1.snakeTail.tailVect[0]? = some w1.head.pos ∧ inClampRange w1.head.pos := by
  have S := UpdatePositions_some w c rx ry w1 h
  refine ⟨S.inBounds, ?_, ?_⟩
  · rw [S.head_eq]; exact S.first_eq
  · rw [S.head_eq]
    have hr := clampAxis_range numRow (w.head.pos.row + (command w.prevChar c).1) (by decide)
    have hc := clampAxis_range numCol (w.head.pos.col + (command w.prevChar c).2.1) (by decide)
    exact ⟨hr.1, hr.2, hc.1, hc.2⟩

/-- A fruit on row `numRow` is never eaten. -/
theorem fruit_on_last_row_not_eaten (w : World) (c : Char)
    (hf : w.fruit.pos.row = numRow) : eats w c = false := by
  cases he : eats w c
  · rfl
  · have h1 := (eats_iff w c).mp he
    have hr := clampAxis_range numRow (w.head.pos.row + (command w.prevChar c).1) (by decide)
    have h2 : (newHead w c).row = numRow := by rw [h1, hf]
    simp only [newHead, numRow] at h2 hr
    omega

/-- A symbol that is no direction symbol gives the changes of the remembered
direction, as the no-input symbol does. -/
theorem command_other (p c : Char) (hc : ¬ isDirection c) :
    command p c = command p NULL_CHAR := by
  unfold isDirection at hc
  have h1 : c ≠ UP_CHAR := fun h => hc (Or.inl h)
  have h2 : c ≠ DOWN_CHAR := fun h => hc (Or.inr (Or.inl h))
  have h3 : c ≠ LEFT_CHAR := fun h => hc (Or.inr (Or.inr (Or.inl h)))
  have h4 : c ≠ RIGHT_CHAR := fun h => hc (Or.inr (Or.inr (Or.inr h)))
  have n1 : NULL_CHAR ≠ UP_CHAR := by decide
  have n2 : NULL_CHAR ≠ DOWN_CHAR := by decide
  have n3 : NULL_CHAR ≠ LEFT_CHAR := by decide
  have n4 : NULL_CHAR ≠ RIGHT_CHAR := by decide
  simp only [command, h1, h2, h3, h4, n1, n2, n3, n4, if_false]

/-- The step treats a symbol that is no direction symbol as the no-input
symbol. -/
theorem UpdatePositions_other (w : World) (c : Char) (rx ry : Int) (hc : ¬ isDirection c) :
    UpdatePositions w c rx ry = UpdatePositions w NULL_CHAR rx ry := by
  simp only [UpdatePositions, command_other w.prevChar c hc]

theorem readInput_frame (m : Machine) (i : List Char) :
    (readInput m i).world = m.world ∧ (readInput m i).ticks = m.ticks ∧
    (readInput m i).phase = m.phase ∧
    (readInput m i).gameOverDisplays = m.gameOverDisplays ∧
    (readInput m i).allowBackgroundProcessing = m.allowBackgroundProcessing ∧
    (readInput m i).showCommandline = m.showCommandline ∧
    ((readInput m i).currentChar = EXIT_CHAR →
      m.currentChar = EXIT_CHAR ∨ i.head? = some EXIT_CHAR) := by
  unfold readInput
  split
  · refine ⟨rfl, rfl, rfl, rfl, rfl, rfl, ?_⟩
    intro h
    have hne : NULL_CHAR ≠ EXIT_CHAR := by decide
    exact absurd h hne
  · split
    · rename_i c hc
      refine ⟨rfl, rfl, rfl, rfl, rfl, rfl, ?_⟩
      intro h
      right
      rw [hc]
      exact congrArg some h
    · exact ⟨rfl, rfl, rfl, rfl, rfl, rfl, fun h => Or.inl h⟩

theorem runMachine_cons (m m1 : Machine) (e : Event) (rest : List Event)
    (h : step m e = some m1) : runMachine m (e :: rest) = runMachine m1 rest := by
  simp only [runMachine, h]

theorem step_terminated (m : Machine) (e : Event) (hp : m.phase = Phase.Terminated) :
    step m e = some m := by
  unfold step
  simp only [hp]

theorem step_display_exit (m : Machine) (e : Event) (hp : m.phase = Phase.GameOver)
    (hc : m.currentChar = EXIT_CHAR) :
    step m e = some { m with phase := Phase.Terminated } := by
  unfold step
  simp only [hp, hc, ne_eq, not_true_eq_false, if_false]

theorem step_display (m : Machine) (e : Event) (hp : m.phase = Phase.GameOver)
    (hc : m.currentChar ≠ EXIT_CHAR) :
    step m e =
      some (readInput { m with gameOverDisplays := m.gameOverDisplays + 1 } e.input) := by
  unfold step
  simp only [hp, hc, ne_eq, not_false_eq_true, if_true]

theorem step_quit (m : Machine) (e : Event) (hp : m.phase = Phase.Running)
    (hc : m.currentChar = QUIT_CHAR) :
    step m e = some { m with phase := Phase.GameOver } := by
  unfold step
  simp only [hp, hc, ne_eq, not_true_eq_false, false_and, if_false]

/-- Once the first loop is left the world and the tick counter never change,
control never returns to the first loop, and `main` returns only after the
exit symbol was read. -/
theorem display_run :
    ∀ (evs : List Event) (m : Machine), m.phase ≠ Phase.Running →
      ∃ m1, runMachine m evs = some m1 ∧ m1.world = m.world ∧ m1.ticks = m.ticks ∧
        m1.phase ≠ Phase.Running ∧
        ((m1.phase = Phase.Terminated ∨ m1.currentChar = EXIT_CHAR) →
          (m.phase = Phase.Terminated ∨ m.currentChar = EXIT_CHAR ∨
            ∃ e ∈ evs, e.input.head? = some EXIT_CHAR)) := by
  intro evs
  induction evs with
  | nil =>
    intro m hm
    refine ⟨m, rfl, rfl, rfl, hm, ?_⟩
    rintro (h | h)
    · exact Or.inl h
    · exact Or.inr (Or.inl h)
  | cons e rest ih =>
    intro m hm
    cases hp : m.phase with
    | Running => exact absurd hp hm
    | Terminated =>
      obtain ⟨m1, h1, h2, h3, h4, _⟩ := ih m hm
      refine ⟨m1, ?_, h2, h3, h4, fun _ => Or.inl rfl⟩
      rw [runMachine_cons m m e rest (step_terminated m e hp)]
      exact h1
    | GameOver =>
      by_cases hc : m.currentChar = EXIT_CHAR
      · obtain ⟨m1, h1, h2, h3, h4, _⟩ :=
          ih { m with phase := Phase.Terminated } (by simp)
        refine ⟨m1, ?_, h2, h3, h4, fun _ => Or.inr (Or.inl hc)⟩
        rw [runMachine_cons m _ e rest (step_display_exit m e hp hc)]
        exact h1
      · obtain ⟨f1, f2, f3, _, _, _, f7⟩ :=
          readInput_frame { m with gameOverDisplays := m.gameOverDisplays + 1 } e.input
        obtain ⟨m1, h1, h2, h3, h4, h5⟩ :=
          ih (readInput { m with gameOverDisplays := m.gameOverDisplays + 1 } e.input)
            (by rw [f3]; exact hm)
        refine ⟨m1, ?_, by rw [h2, f1], by rw [h3, f2], h4, ?_⟩
        · rw [runMachine_cons m _ e rest (step_display m e hp hc)]
          exact h1
        · intro h
          rcases h5 h with h6 | h6 | ⟨e1, he1, he2⟩
          · rw [f3] at h6
            exact absurd (hp.symm.trans h6) (by decide)
          · rcases f7 h6 with h7 | h7
            · exact absurd h7 hc
            · exact Or.inr (Or.inr ⟨e, List.mem_cons_self _ _, h7⟩)
          · exact Or.inr (Or.inr ⟨e1, List.mem_cons_of_mem _ he1, he2⟩)

/-! ## Reachable worlds -/

/-- A list of pairwise distinct cells, each the placeholder or in the clamp
range, has at most `18 * 38 + 1 = 685` entries. -/
theorem distinct_cells_le (v : List position) (hn : v.Nodup)
    (hc : ∀ p ∈ v, p = ⟨0, 0⟩ ∨ inClampRange p) : v.length ≤ 685 := by
  have hsub : v.toFinset ⊆
      insert (⟨0, 0⟩ : position)
        (Finset.image (fun rc : Int × Int => (⟨rc.1, rc.2⟩ : position))
          (Finset.Icc 2 19 ×ˢ Finset.Icc 2 39)) := by
    intro p hp
    rcases hc p (List.mem_toFinset.mp hp) with h | h
    · rw [h]; exact Finset.mem_insert_self _ _
    · apply Finset.mem_insert_of_mem
      rw [Finset.mem_image]
      refine ⟨(p.row, p.col), ?_, rfl⟩
      unfold inClampRange at h
      simp only [numRow, numCol] at h
      simp only [Finset.mem_product, Finset.mem_Icc]
      omega
  have h1 := Finset.card_le_card hsub
  have h2 := Finset.card_insert_le (⟨0, 0⟩ : position)
    (Finset.image (fun rc : Int × Int => (⟨rc.1, rc.2⟩ : position))
      (Finset.Icc 2 19 ×ˢ Finset.Icc 2 39))
  have h3 : (Finset.image (fun rc : Int × Int => (⟨rc.1, rc.2⟩ : position))
      (Finset.Icc 2 19 ×ˢ Finset.Icc 2 39)).card ≤
      (Finset.Icc (2 : Int) 19 ×ˢ Finset.Icc (2 : Int) 39).card := Finset.card_image_le
  have h4 : (Finset.Icc (2 : Int) 19 ×ˢ Finset.Icc (2 : Int) 39).card = 684 := by
    rw [Finset.card_product, Int.card_Icc, Int.card_Icc]
    rfl
  rw [List.toFinset_card_of_nodup hn] at h1
  omega

/-- The vector after a step: the new head, then the old vector cut to the
new length less one. -/
theorem StepSpec.tailVect_eq {w : World} {c : Char} {rx ry : Int} {w1 : World}
    (S : StepSpec w c rx ry w1)
    (h1 : w1.snakeTail.tailLength = w1.snakeTail.tailVect.length) :
    w1.snakeTail.tailVect =
      newHead w c :: w.snakeTail.tailVect.take (w1.snakeTail.tailVect.length - 1) := by
  have hne := S.nonempty
  have hlen1 : 1 ≤ w1.snakeTail.tailVect.length := by
    rw [S.length_eq]
    split <;> omega
  apply List.ext_getElem?
  intro j
  cases j with
  | zero => rw [S.first_eq]; simp
  | succ j =>
    rw [List.getElem?_cons_succ, List.getElem?_take]
    by_cases hj : j + 1 < w1.snakeTail.tailVect.length
    · rw [S.follow (j + 1) (by omega) (by omega), if_pos (by omega)]
      rfl
    · rw [if_neg (by omega)]
      exact List.getElem?_eq_none (by omega)

/-- A step from a world with the invariant and `gameOver` false returns a
world with the invariant. -/
theorem Inv.step {w : World} {c : Char} {rx ry : Int} {w1 : World} (hi : Inv w)
    (hg : w.gameOver = false) (h : UpdatePositions w c rx ry = some w1) : Inv w1 := by
  obtain ⟨i1, i2, i3, i4, i5⟩ := hi
  have S := UpdatePositions_some w c rx ry w1 h
  have hle := distinct_cells_le _ (i5 hg) i4
  have hmod : (w.snakeTail.tailLength + 1) % UINT_MOD = w.snakeTail.tailLength + 1 :=
    Nat.mod_eq_of_lt (by simp only [UINT_MOD]; omega)
  have hmods : (w.score + 1) % UINT_MOD = w.score + 1 :=
    Nat.mod_eq_of_lt (by simp only [UINT_MOD]; omega)
  have htl : w1.snakeTail.tailLength = w1.snakeTail.tailVect.length := by
    rw [S.tailLength_eq, S.length_eq]
    split
    · rw [hmod, i1]
    · exact i1
  have hv := S.tailVect_eq htl
  have hhead : inClampRange (newHead w c) := by
    have hr := clampAxis_range numRow (w.head.pos.row + (command w.prevChar c).1) (by decide)
    have hc := clampAxis_range numCol (w.head.pos.col + (command w.prevChar c).2.1) (by decide)
    exact ⟨hr.1, hr.2, hc.1, hc.2⟩
  refine ⟨htl, ?_, ?_, ?_, ?_⟩
  · rw [S.length_eq]
    split <;> omega
  · rw [S.score_eq, S.tailLength_eq]
    split
    · rw [hmod, hmods, i3]
    · exact i3
  · intro p hp
    rw [hv] at hp
    rcases List.mem_cons.mp hp with h1 | h1
    · right; rw [h1]; exact hhead
    · exact i4 p (List.mem_of_mem_take h1)
  · intro hg1
    rw [hv]
    refine List.nodup_cons.mpr ⟨?_, (List.take_sublist _ _).nodup (i5 hg)⟩
    intro hmem
    obtain ⟨j, hj⟩ := List.mem_iff_getElem?.mp hmem
    rw [List.getElem?_take] at hj
    by_cases hlt : j < w1.snakeTail.tailVect.length - 1
    · rw [if_pos hlt] at hj
      have hgo : w1.gameOver = true := by
        refine S.gameOver_iff.mpr (Or.inr ⟨j + 1, by omega, by omega, ?_⟩)
        rw [S.follow (j + 1) (by omega) (by omega)]
        exact hj
      rw [hg1] at hgo
      exact absurd hgo (by decide)
    · rw [if_neg hlt] at hj
      exact absurd hj (by simp)

/-- Every reachable world has the invariant. -/
theorem Reachable.inv {w : World} (hr : Reachable w) : Inv w := by
  induction hr with
  | init fx fy =>
    refine ⟨rfl, le_refl _, rfl, ?_, fun _ => ?_⟩
    · intro p hp
      left
      simpa [initWorld] using hp
    · simp [initWorld]
  | step w w1 c rx ry _ hg h ih => exact ih.step hg h

/-- The counters of a reachable world are far from wrapping: the body has at
most `686` segments and `score` is one less than the body length. -/
theorem Reachable.counters_small {w : World} (hr : Reachable w) :
    InBounds w ∧
    w.snakeTail.tailLength = w.snakeTail.tailVect.length ∧
    w.snakeTail.tailLength ≤ 686 ∧ w.score + 1 = w.snakeTail.tailLength ∧
    w.score + 1 < UINT_MOD ∧ w.snakeTail.tailLength + 1 < UINT_MOD := by
  have hb : w.snakeTail.tailLength ≤ 686 := by
    cases hr with
    | init fx fy => exact Nat.le_of_ble_eq_true rfl
    | step w0 w1 c rx ry hr0 hg h =>
      obtain ⟨i1, _, _, i4, i5⟩ := hr0.inv
      have S := UpdatePositions_some w0 c rx ry _ h
      have hle := distinct_cells_le _ (i5 hg) i4
      have hm := Nat.mod_le (w0.snakeTail.tailLength + 1) UINT_MOD
      rw [S.tailLength_eq]
      split <;> omega
  obtain ⟨i1, i2, i3, _, _⟩ := hr.inv
  refine ⟨⟨i2, by omega⟩, i1, hb, i3, ?_, ?_⟩ <;> simp only [UINT_MOD] <;> omega

/-! ## The claims -/

/-- C6: for every world and every input symbol, the head a step returns has
its row in `[2, numRow - 1] = [2, 19]` and its column in
`[2, numCol - 1] = [2, 39]`, whatever the head position before the step; and
the step returns a world on every in-bounds world. -/
theorem UpdatePositions_head_in_clamp_range (w : World) (c : Char) (rx ry : Int) :
    (InBounds w → ∃ w1, UpdatePositions w c rx ry = some w1) ∧
    ∀ w1, UpdatePositions w c rx ry = some w1 →
      (2 ≤ w1.head.pos.row ∧ w1.head.pos.row ≤ numRow - 1 ∧ w1.head.pos.row ≤ 19) ∧
      (2 ≤ w1.head.pos.col ∧ w1.head.pos.col ≤ numCol - 1 ∧ w1.head.pos.col ≤ 39) := by
  refine ⟨UpdatePositions_defined w c rx ry, ?_⟩
  intro w1 h
  have S := UpdatePositions_some w c rx ry w1 h
  rw [S.head_eq]
  have hr := clampAxis_range numRow (w.head.pos.row + (command w.prevChar c).1) (by decide)
  have hc := clampAxis_range numCol (w.head.pos.col + (command w.prevChar c).2.1) (by decide)
  simp only [newHead, numRow, numCol] at hr hc ⊢
  omega

/-- The step of `UpdatePositions_head_in_clamp_range` at a head far outside
the border. -/
theorem UpdatePositions_head_in_clamp_range_witness :
    InBounds { beforeFruit 0 with head := { pos := ⟨-7, 1000⟩ } } ∧
    ∃ w1, UpdatePositions { beforeFruit 0 with head := { pos := ⟨-7, 1000⟩ } } UP_CHAR 2 2
        = some w1 ∧
      (2 ≤ w1.head.pos.row ∧ w1.head.pos.row ≤ numRow - 1 ∧ w1.head.pos.row ≤ 19) ∧
      (2 ≤ w1.head.pos.col ∧ w1.head.pos.col ≤ numCol - 1 ∧ w1.head.pos.col ≤ 39) :=
  ⟨by decide, _, rfl,
    (UpdatePositions_head_in_clamp_range
      { beforeFruit 0 with head := { pos := ⟨-7, 1000⟩ } } UP_CHAR 2 2).2 _ rfl⟩

/-- C2: for every world and every input symbol, the flag `gameOver` after a
step is true if and only if it was true before the step or the new head
position equals the updated body segment at some index `i` with
`1 ≤ i < tailLength`; so a step never resets the flag and never sets it when
the head equals no such segment.  The step returns a world on every in-bounds
world, and `tailLength` is the size of the vector after the step when it was
before and does not wrap. -/
theorem UpdatePositions_gameOver_iff (w : World) (c : Char) (rx ry : Int) :
    (InBounds w → ∃ w1, UpdatePositions w c rx ry = some w1) ∧
    ∀ w1, UpdatePositions w c rx ry = some w1 →
      (w1.gameOver = true ↔
        w.gameOver = true ∨
          ∃ i, 1 ≤ i ∧ i < w1.snakeTail.tailLength ∧
            w1.snakeTail.tailVect[i]? = some w1.head.pos) ∧
      (w.gameOver = true → w1.gameOver = true) ∧
      (w.snakeTail.tailLength = w.snakeTail.tailVect.length →
        w.snakeTail.tailLength + 1 < UINT_MOD →
        w1.snakeTail.tailLength = w1.snakeTail.tailVect.length) := by
  refine ⟨UpdatePositions_defined w c rx ry, ?_⟩
  intro w1 h
  have S := UpdatePositions_some w c rx ry w1 h
  have hh : w1.head.pos = newHead w c := by rw [S.head_eq]
  refine ⟨?_, ?_, ?_⟩
  · rw [hh]; exact S.gameOver_iff
  · intro hg; exact S.gameOver_iff.mpr (Or.inl hg)
  · intro h1 h2
    rw [S.tailLength_eq, S.length_eq]
    split
    · rw [Nat.mod_eq_of_lt h2, h1]
    · exact h1

/-- The step of `UpdatePositions_gameOver_iff` at a world of three
segments. -/
theorem UpdatePositions_gameOver_iff_witness :
    InBounds threeLong ∧
    ∃ w1, UpdatePositions threeLong NULL_CHAR 2 2 = some w1 ∧
      (w1.gameOver = true ↔
        threeLong.gameOver = true ∨
          ∃ i, 1 ≤ i ∧ i < w1.snakeTail.tailLength ∧
            w1.snakeTail.tailVect[i]? = some w1.head.pos) :=
  ⟨by decide, _, rfl,
    ((UpdatePositions_gameOver_iff threeLong NULL_CHAR 2 2).2 _ rfl).1⟩

/-- C3: for every world whose `tailLength` equals the size of `tailVect` and
is at least `1`, and every input symbol, the step returns a world in which
entry `0` of the body is the new head position and every entry `i` with
`1 ≤ i < tailLength` holds the value entry `i - 1` held before the step;
`tailLength` is again the size of the vector unless the counter wraps. -/
theorem UpdatePositions_follow_chain (w : World) (c : Char) (rx ry : Int)
    (hlen : w.snakeTail.tailLength = w.snakeTail.tailVect.length)
    (hpos : 1 ≤ w.snakeTail.tailLength) :
    ∃ w1, UpdatePositions w c rx ry = some w1 ∧
      w1.snakeTail.tailVect[0]? = some w1.head.pos ∧
      (∀ i, 1 ≤ i → i < w1.snakeTail.tailLength →
        w1.snakeTail.tailVect[i]? = w.snakeTail.tailVect[i - 1]?) ∧
      (w.snakeTail.tailLength + 1 < UINT_MOD →
        w1.snakeTail.tailLength = w1.snakeTail.tailVect.length) := by
  obtain ⟨w1, h⟩ := UpdatePositions_defined w c rx ry ⟨by omega, by omega⟩
  have S := UpdatePositions_some w c rx ry w1 h
  refine ⟨w1, h, ?_, S.follow, ?_⟩
  · rw [S.head_eq]; exact S.first_eq
  · intro h2
    rw [S.tailLength_eq, S.length_eq]
    split
    · rw [Nat.mod_eq_of_lt h2, hlen]
    · exact hlen

/-- The step of `UpdatePositions_follow_chain` at a world of three
segments. -/
theorem UpdatePositions_follow_chain_witness :
    threeLong.snakeTail.tailLength = threeLong.snakeTail.tailVect.length ∧
    1 ≤ threeLong.snakeTail.tailLength ∧
    ∃ w1, UpdatePositions threeLong NULL_CHAR 2 2 = some w1 ∧
      w1.snakeTail.tailVect[0]? = some w1.head.pos ∧
      (∀ i, 1 ≤ i → i < w1.snakeTail.tailLength →
        w1.snakeTail.tailVect[i]? = threeLong.snakeTail.tailVect[i - 1]?) ∧
      (threeLong.snakeTail.tailLength + 1 < UINT_MOD →
        w1.snakeTail.tailLength = w1.snakeTail.tailVect.length) :=
  ⟨by decide, by decide,
    UpdatePositions_follow_chain threeLong NULL_CHAR 2 2 (by decide) (by decide)⟩

/-- C8: for every in-bounds world, every direction symbol `d` and every list
`rs` of random values, of any length `N`, the step with `d` and then each of
the `N` steps without input symbol returns a world, sets the head to the
clamp of the previous head plus the delta of `d`, and leaves `prevChar`
equal to `d`. -/
theorem sticky_direction (w : World) (d : Char) (r0 : Int × Int) (rs : List (Int × Int))
    (hd : isDirection d) (hb : InBounds w) :
    ∃ w1, UpdatePositions w d r0.1 r0.2 = some w1 ∧
      w1.head.pos = clampPos (w.head.pos.row + (delta d).1) (w.head.pos.col + (delta d).2) ∧
      w1.prevChar = d ∧
      ∀ k r, rs[k]? = some r →
        ∃ wa wb, runSteps w1 (noInput (rs.take k)) = some wa ∧
          UpdatePositions wa NULL_CHAR r.1 r.2 = some wb ∧
          wb.head.pos =
            clampPos (wa.head.pos.row + (delta d).1) (wa.head.pos.col + (delta d).2) ∧
          wa.prevChar = d ∧ wb.prevChar = d := by
  obtain ⟨w1, h⟩ := UpdatePositions_defined w d r0.1 r0.2 hb
  have S := UpdatePositions_some w d r0.1 r0.2 w1 h
  have hp1 : w1.prevChar = d := by rw [S.prevChar_eq, command_direction _ d hd]
  refine ⟨w1, h, ?_, hp1, ?_⟩
  · rw [S.head_eq]
    simp only [newHead, command_direction _ d hd, clampPos]
  · intro k r _
    obtain ⟨wa, ha, hba, hpa⟩ := sticky_run d hd (rs.take k) w1 S.inBounds hp1
    obtain ⟨wb, hb1, _, hpb, hhb⟩ := sticky_step wa d r.1 r.2 hd hba hpa
    exact ⟨wa, wb, ha, hb1, hhb, hpa, hpb⟩

/-- The run of `sticky_direction` from a world of three segments: the symbol
`s` and two steps without input symbol. -/
theorem sticky_direction_witness :
    isDirection DOWN_CHAR ∧ InBounds threeLong ∧
    ∃ w1, UpdatePositions threeLong DOWN_CHAR 2 2 = some w1 ∧
      w1.head.pos = clampPos (threeLong.head.pos.row + (delta DOWN_CHAR).1)
        (threeLong.head.pos.col + (delta DOWN_CHAR).2) ∧
      w1.prevChar = DOWN_CHAR ∧
      ∀ k r, [((3 : Int), (3 : Int)), (4, 4)][k]? = some r →
        ∃ wa wb, runSteps w1 (noInput ([((3 : Int), (3 : Int)), (4, 4)].take k)) = some wa ∧
          UpdatePositions wa NULL_CHAR r.1 r.2 = some wb ∧
          wb.head.pos =
            clampPos (wa.head.pos.row + (delta DOWN_CHAR).1)
              (wa.head.pos.col + (delta DOWN_CHAR).2) ∧
          wa.prevChar = DOWN_CHAR ∧ wb.prevChar = DOWN_CHAR :=
  ⟨by decide, by decide,
    sticky_direction threeLong DOWN_CHAR (2, 2) [(3, 3), (4, 4)] (by decide) (by decide)⟩

/-- C5, the claim as stated fails: with `score` at `4294967295` the step
that lands the head on the fruit returns the score `0`. -/
theorem score_wraps :
    ∃ w1, UpdatePositions (beforeFruit 4294967295) NULL_CHAR 7 7 = some w1 ∧
      w1.head.pos = (beforeFruit 4294967295).fruit.pos ∧
      w1.score = 0 ∧
      w1.score < (beforeFruit 4294967295).score ∧
      w1.score ≠ (beforeFruit 4294967295).score + 1 :=
  ⟨_, rfl, by decide, by decide, by decide, by decide⟩

/-- C5, amended: for every in-bounds world whose two counters `score` and
`tailLength` are below `2 ^ 32 - 1`, and every input symbol, the step returns
a world; when the new head position equals the fruit position held before
the step, `score`, `tailLength` and the size of `tailVect` each grow by
exactly `1`; otherwise `score`, `tailLength`, the size of `tailVect` and the
fruit are unchanged; and `score` does not decrease. -/
theorem UpdatePositions_score_length (w : World) (c : Char) (rx ry : Int)
    (hb : InBounds w) (hs : w.score + 1 < UINT_MOD)
    (ht : w.snakeTail.tailLength + 1 < UINT_MOD) :
    ∃ w1, UpdatePositions w c rx ry = some w1 ∧
      (w1.head.pos = w.fruit.pos →
        w1.score = w.score + 1 ∧
        w1.snakeTail.tailLength = w.snakeTail.tailLength + 1 ∧
        w1.snakeTail.tailVect.length = w.snakeTail.tailVect.length + 1) ∧
      (w1.head.pos ≠ w.fruit.pos →
        w1.score = w.score ∧
        w1.snakeTail.tailLength = w.snakeTail.tailLength ∧
        w1.snakeTail.tailVect.length = w.snakeTail.tailVect.length ∧
        w1.fruit = w.fruit) ∧
      w.score ≤ w1.score := by
  obtain ⟨w1, h⟩ := UpdatePositions_defined w c rx ry hb
  have S := UpdatePositions_some w c rx ry w1 h
  have hh : w1.head.pos = newHead w c := by rw [S.head_eq]
  refine ⟨w1, h, ?_, ?_, ?_⟩
  · intro he
    have he1 : eats w c = true := (eats_iff w c).mpr (hh ▸ he)
    rw [S.score_eq, S.tailLength_eq, S.length_eq]
    simp only [he1, if_true]
    exact ⟨Nat.mod_eq_of_lt hs, Nat.mod_eq_of_lt ht, trivial⟩
  · intro he
    have he1 : eats w c = false := by
      cases hq : eats w c
      · rfl
      · exact absurd (hh ▸ (eats_iff w c).mp hq) he
    rw [S.score_eq, S.tailLength_eq, S.length_eq, S.fruit_eq]
    simp [he1]
  · rw [S.score_eq]
    split
    · rw [Nat.mod_eq_of_lt hs]; omega
    · exact le_refl _

/-- The step of `UpdatePositions_score_length` that lands on the fruit with
score `0`. -/
theorem UpdatePositions_score_length_witness :
    InBounds (beforeFruit 0) ∧ (beforeFruit 0).score + 1 < UINT_MOD ∧
    (beforeFruit 0).snakeTail.tailLength + 1 < UINT_MOD ∧
    ∃ w1, UpdatePositions (beforeFruit 0) NULL_CHAR 7 7 = some w1 ∧
      (w1.head.pos = (beforeFruit 0).fruit.pos →
        w1.score = (beforeFruit 0).score + 1 ∧
        w1.snakeTail.tailLength = (beforeFruit 0).snakeTail.tailLength + 1 ∧
        w1.snakeTail.tailVect.length = (beforeFruit 0).snakeTail.tailVect.length + 1) ∧
      (w1.head.pos ≠ (beforeFruit 0).fruit.pos →
        w1.score = (beforeFruit 0).score ∧
        w1.snakeTail.tailLength = (beforeFruit 0).snakeTail.tailLength ∧
        w1.snakeTail.tailVect.length = (beforeFruit 0).snakeTail.tailVect.length ∧
        w1.fruit = (beforeFruit 0).fruit) ∧
      (beforeFruit 0).score ≤ w1.score :=
  ⟨by decide, by decide, by decide,
    UpdatePositions_score_length (beforeFruit 0) NULL_CHAR 7 7
      (by decide) (by decide) (by decide)⟩

/-- C4, the claim as stated fails: from the initial world with the fruit on
`(2, 3)`, after the first step of `main` (symbol `c`) the step to the right
eats the fruit with one body segment;
after that step the body has two segments and the new one, at index `1`,
holds `(2, 2)`, where segment `0` was before the step, not `(0, 0)`. -/
theorem new_segment_filled_at_once :
    ∃ wA w1, runSteps (initWorld 2 3) [(CLEAR_CHAR, 5, 5)] = some wA ∧
      wA.snakeTail.tailLength = 1 ∧
      UpdatePositions wA RIGHT_CHAR 7 7 = some w1 ∧
      w1.head.pos = wA.fruit.pos ∧
      w1.snakeTail.tailLength = 2 ∧ w1.snakeTail.tailVect.length = 2 ∧
      w1.snakeTail.tailVect[1]? = some ⟨2, 2⟩ ∧
      w1.snakeTail.tailVect[1]? = wA.snakeTail.tailVect[0]? ∧
      w1.snakeTail.tailVect[1]? ≠ some ⟨0, 0⟩ :=
  ⟨_, _, rfl, by decide, rfl, by decide, by decide, by decide, by decide, by decide,
    by decide⟩

/-- C4, amended: on a step that eats the fruit from a world whose
`tailLength` equals the size of `tailVect`, with `1 ≤ N = tailLength` and
`N < 2 ^ 32 - 1`, the body length becomes `N + 1` on that step and the
follow update of that step runs over the new length: after the step the new
segment at index `N` holds the position segment `N - 1` held before the
step. -/
theorem growth_without_lag (w : World) (c : Char) (rx ry : Int)
    (hlen : w.snakeTail.tailLength = w.snakeTail.tailVect.length)
    (hpos : 1 ≤ w.snakeTail.tailLength)
    (ht : w.snakeTail.tailLength + 1 < UINT_MOD)
    (he : newHead w c = w.fruit.pos) :
    ∃ w1 p, UpdatePositions w c rx ry = some w1 ∧
      w1.head.pos = w.fruit.pos ∧
      w1.snakeTail.tailLength = w.snakeTail.tailLength + 1 ∧
      w1.snakeTail.tailVect.length = w.snakeTail.tailVect.length + 1 ∧
      w.snakeTail.tailVect[w.snakeTail.tailLength - 1]? = some p ∧
      w1.snakeTail.tailVect[w.snakeTail.tailLength]? = some p := by
  obtain ⟨w1, h⟩ := UpdatePositions_defined w c rx ry ⟨by omega, by omega⟩
  have S := UpdatePositions_some w c rx ry w1 h
  have he1 : eats w c = true := (eats_iff w c).mpr he
  have htl : w1.snakeTail.tailLength = w.snakeTail.tailLength + 1 := by
    rw [S.tailLength_eq]
    simp only [he1, if_true]
    exact Nat.mod_eq_of_lt ht
  have hlt : w.snakeTail.tailLength - 1 < w.snakeTail.tailVect.length := by omega
  refine ⟨w1, w.snakeTail.tailVect[w.snakeTail.tailLength - 1], h, ?_, htl, ?_,
    List.getElem?_eq_getElem hlt, ?_⟩
  · rw [S.head_eq]; exact he
  · rw [S.length_eq]
    simp only [he1, if_true]
  · rw [S.follow w.snakeTail.tailLength hpos (by omega)]
    exact List.getElem?_eq_getElem hlt

/-- The step of `growth_without_lag` that eats the fruit with one
segment. -/
theorem growth_without_lag_witness :
    (beforeFruit 0).snakeTail.tailLength = (beforeFruit 0).snakeTail.tailVect.length ∧
    1 ≤ (beforeFruit 0).snakeTail.tailLength ∧
    (beforeFruit 0).snakeTail.tailLength + 1 < UINT_MOD ∧
    newHead (beforeFruit 0) NULL_CHAR = (beforeFruit 0).fruit.pos ∧
    ∃ w1 p, UpdatePositions (beforeFruit 0) NULL_CHAR 7 7 = some w1 ∧
      w1.head.pos = (beforeFruit 0).fruit.pos ∧
      w1.snakeTail.tailLength = (beforeFruit 0).snakeTail.tailLength + 1 ∧
      w1.snakeTail.tailVect.length = (beforeFruit 0).snakeTail.tailVect.length + 1 ∧
      (beforeFruit 0).snakeTail.tailVect[(beforeFruit 0).snakeTail.tailLength - 1]? = some p ∧
      w1.snakeTail.tailVect[(beforeFruit 0).snakeTail.tailLength]? = some p :=
  ⟨by decide, by decide, by decide, by decide,
    growth_without_lag (beforeFruit 0) NULL_CHAR 7 7
      (by decide) (by decide) (by decide) (by decide)⟩

/-- C1, the claim as stated fails: from the initial world with the fruit on
`(2, 3)`, the first step of `main` (symbol `c`) and a step to the right give
a world with two body segments, the head on the top row of the clamp range
and `gameOver` false; the step up proposes a head outside the clamp range
and returns `gameOver` true. -/
theorem wall_ends_game_with_two_segments :
    ∃ wA wB, runSteps (initWorld 2 3) [(CLEAR_CHAR, 5, 5), (RIGHT_CHAR, 7, 7)] = some wA ∧
      wA.gameOver = false ∧
      wA.snakeTail.tailLength = 2 ∧
      ¬ inClampRange (proposed wA UP_CHAR) ∧
      UpdatePositions wA UP_CHAR 9 9 = some wB ∧
      wB.gameOver = true :=
  ⟨_, _, rfl, by decide, by decide, by decide, rfl, by decide⟩

/-- C1, amended: for every in-bounds world with `gameOver` false, the head
in the clamp range and in entry `0` of the body (every world a step
returns is such), and every input symbol whose proposed head falls outside
the clamp range, the step returns a world with the head where it was, and
`gameOver` is true after the step exactly when the body then has at least
two segments; with one segment it stays false. -/
theorem wall_hit (w : World) (c : Char) (rx ry : Int)
    (hb : InBounds w) (hg : w.gameOver = false)
    (h0 : w.snakeTail.tailVect[0]? = some w.head.pos)
    (hin : inClampRange w.head.pos)
    (hout : ¬ inClampRange (proposed w c)) :
    ∃ w1, UpdatePositions w c rx ry = some w1 ∧
      w1.head.pos = w.head.pos ∧
      (w1.gameOver = true ↔ 2 ≤ w1.snakeTail.tailLength) ∧
      (w1.snakeTail.tailLength = 1 → w1.gameOver = false) := by
  obtain ⟨w1, h⟩ := UpdatePositions_defined w c rx ry hb
  have S := UpdatePositions_some w c rx ry w1 h
  have hn := newHead_at_wall w c hin hout
  have hiff : w1.gameOver = true ↔ 2 ≤ w1.snakeTail.tailLength := by
    rw [S.gameOver_iff]
    constructor
    · rintro (h1 | ⟨j, hj1, hj2, _⟩)
      · rw [hg] at h1; exact absurd h1 (by decide)
      · omega
    · intro h2
      refine Or.inr ⟨1, le_refl _, by omega, ?_⟩
      rw [S.follow 1 (le_refl _) (by omega), hn]
      exact h0
  refine ⟨w1, h, ?_, hiff, ?_⟩
  · rw [S.head_eq]; exact hn
  · intro h1
    cases hq : w1.gameOver
    · rfl
    · have := hiff.mp hq
      omega

/-- The step of `wall_hit` up from the top row with three segments. -/
theorem wall_hit_witness :
    InBounds { threeLong with head := { pos := ⟨2, 5⟩ },
                              snakeTail := { tailVect := [⟨2, 5⟩, ⟨2, 4⟩, ⟨2, 3⟩],
                                             tailLength := 3 } } ∧
    ¬ inClampRange
      (proposed { threeLong with head := { pos := ⟨2, 5⟩ },
                                 snakeTail := { tailVect := [⟨2, 5⟩, ⟨2, 4⟩, ⟨2, 3⟩],
                                                tailLength := 3 } } UP_CHAR) ∧
    ∃ w1, UpdatePositions
        { threeLong with head := { pos := ⟨2, 5⟩ },
                         snakeTail := { tailVect := [⟨2, 5⟩, ⟨2, 4⟩, ⟨2, 3⟩],
                                        tailLength := 3 } } UP_CHAR 2 2 = some w1 ∧
      w1.head.pos = (⟨2, 5⟩ : position) ∧
      (w1.gameOver = true ↔ 2 ≤ w1.snakeTail.tailLength) ∧
      (w1.snakeTail.tailLength = 1 → w1.gameOver = false) :=
  ⟨by decide, by decide,
    wall_hit { threeLong with head := { pos := ⟨2, 5⟩ },
                              snakeTail := { tailVect := [⟨2, 5⟩, ⟨2, 4⟩, ⟨2, 3⟩],
                                             tailLength := 3 } } UP_CHAR 2 2
      (by decide) (by decide) (by decide) (by decide) (by decide)⟩

/-- C7, at the upper ends of the two distributions: `20` is a value of
`movementX(2, 20)` and `40` a value of `movementY(2, 40)`; with them
`GenerateFruit` and the initial fruit creation put the fruit on `(20, 40)`,
whose row exceeds `numRow - 1` and whose column exceeds `numCol - 1`. -/
theorem GenerateFruit_on_border :
    (movementX_lo ≤ 20 ∧ 20 ≤ movementX_hi) ∧ (movementY_lo ≤ 40 ∧ 40 ≤ movementY_hi) ∧
    (GenerateFruit {} 20 40).pos = ⟨20, 40⟩ ∧
    (initWorld 20 40).fruit.pos = ⟨20, 40⟩ ∧
    ¬ ((GenerateFruit {} 20 40).pos.row ≤ numRow - 1) ∧
    ¬ ((GenerateFruit {} 20 40).pos.col ≤ numCol - 1) ∧
    ¬ inClampRange (GenerateFruit {} 20 40).pos := by
  decide

/-- C9, the claim as stated fails: the first iteration of `main` reads the
quit symbol while running; the next loop test leaves the first loop, and the
second loop then calls `GameOverDisplay` on each of the two iterations that
follow: `main` has not returned and waits for the exit symbol. -/
theorem quit_passes_through_display :
    ∃ m1 m2, runMachine (initMachine 5 5 0) [⟨0, 2, 2, [QUIT_CHAR]⟩] = some m1 ∧
      m1.phase = Phase.Running ∧ m1.currentChar = QUIT_CHAR ∧
      runMachine m1 [⟨1, 2, 2, []⟩, ⟨2, 2, 2, []⟩, ⟨3, 2, 2, []⟩] = some m2 ∧
      m2.phase = Phase.GameOver ∧ m2.phase ≠ Phase.Terminated ∧
      m2.gameOverDisplays = 2 ∧ m2.world = m1.world :=
  ⟨_, _, rfl, by decide, by decide, rfl, by decide, by decide, by decide, by decide⟩

/-- C9, amended: whenever the quit symbol is the current symbol while
running, the next loop test leaves the first loop without a call of
`UpdatePositions` and enters the second loop, whose first iteration calls
`GameOverDisplay`; from then on the world and the tick counter never change,
and `main` returns only after the exit symbol `e` was read. -/
theorem quit_enters_display (m : Machine)
    (hR : m.phase = Phase.Running) (hq : m.currentChar = QUIT_CHAR) :
    (∀ e, step m e = some { m with phase := Phase.GameOver }) ∧
    (∀ e1 e2, ∃ m2, runMachine m [e1, e2] = some m2 ∧ m2.phase = Phase.GameOver ∧
      m2.gameOverDisplays = m.gameOverDisplays + 1) ∧
    (∀ evs, ∃ m1, runMachine m evs = some m1 ∧ m1.world = m.world ∧ m1.ticks = m.ticks ∧
      (evs ≠ [] → m1.phase ≠ Phase.Running) ∧
      (m1.phase = Phase.Terminated → ∃ e ∈ evs, e.input.head? = some EXIT_CHAR)) := by
  have hstep : ∀ e, step m e = some { m with phase := Phase.GameOver } :=
    fun e => step_quit m e hR hq
  refine ⟨hstep, ?_, ?_⟩
  · intro e1 e2
    obtain ⟨f1, f2, f3, f4, _⟩ :=
      readInput_frame
        { m with phase := Phase.GameOver, gameOverDisplays := m.gameOverDisplays + 1 } e2.input
    refine ⟨readInput
      { m with phase := Phase.GameOver, gameOverDisplays := m.gameOverDisplays + 1 } e2.input,
      ?_, f3, f4⟩
    have hne : ({ m with phase := Phase.GameOver } : Machine).currentChar ≠ EXIT_CHAR := by
      show m.currentChar ≠ EXIT_CHAR
      rw [hq]
      decide
    rw [runMachine_cons m _ e1 [e2] (hstep e1),
      runMachine_cons _ _ e2 [] (step_display { m with phase := Phase.GameOver } e2 rfl hne)]
    rfl
  · intro evs
    cases evs with
    | nil =>
      refine ⟨m, rfl, rfl, rfl, fun h => absurd rfl h, ?_⟩
      intro h
      rw [hR] at h
      exact absurd h (by decide)
    | cons e rest =>
      obtain ⟨m1, h1, h2, h3, h4, h5⟩ :=
        display_run rest { m with phase := Phase.GameOver } (by simp)
      refine ⟨m1, ?_, h2, h3, fun _ => h4, ?_⟩
      · rw [runMachine_cons m _ e rest (hstep e)]
        exact h1
      · intro ht
        rcases h5 (Or.inl ht) with h6 | h6 | ⟨e1, he1, he2⟩
        · exact absurd h6 (by simp)
        · have h7 : m.currentChar = EXIT_CHAR := h6
          rw [hq] at h7
          exact absurd h7 (by decide)
        · exact ⟨e1, List.mem_cons_of_mem _ he1, he2⟩

/-- The machine of `quit_enters_display` right after the quit symbol was read
in the first iteration. -/
theorem quit_enters_display_witness :
    ({ initMachine 5 5 0 with currentChar := QUIT_CHAR } : Machine).phase = Phase.Running ∧
    ({ initMachine 5 5 0 with currentChar := QUIT_CHAR } : Machine).currentChar = QUIT_CHAR ∧
    ∀ e, step { initMachine 5 5 0 with currentChar := QUIT_CHAR } e =
      some { initMachine 5 5 0 with currentChar := QUIT_CHAR, phase := Phase.GameOver } :=
  ⟨rfl, rfl,
    (quit_enters_display { initMachine 5 5 0 with currentChar := QUIT_CHAR } rfl rfl).1⟩

/-- C10, the claim as stated fails: `main` reads `d` and then the toggle
symbol `b`; on the due tick whose pending symbol is `b` the head moves from
`(2, 3)` to `(2, 4)`, in the remembered direction, and the tick counter
advances. -/
theorem toggle_tick_moves_head :
    ∃ m2 m3, runMachine (initMachine 9 9 0)
        [⟨100, 2, 2, [RIGHT_CHAR]⟩, ⟨200, 2, 2, [BLOCKING_CHAR]⟩] = some m2 ∧
      m2.phase = Phase.Running ∧ m2.currentChar = BLOCKING_CHAR ∧
      m2.world.prevChar = RIGHT_CHAR ∧
      due m2 ⟨300, 2, 2, []⟩ = true ∧
      step m2 ⟨300, 2, 2, []⟩ = some m3 ∧
      m2.world.head.pos = ⟨2, 3⟩ ∧ m3.world.head.pos = ⟨2, 4⟩ ∧
      m3.world ≠ m2.world ∧ m3.ticks = m2.ticks + 1 ∧
      m3.allowBackgroundProcessing = !m2.allowBackgroundProcessing :=
  ⟨_, _, rfl, by decide, by decide, by decide, by decide, rfl, by decide, by decide,
    by decide, by decide, by decide⟩

/-- C10, amended: on a due tick of the first loop whose pending symbol is the
toggle `b` or the command-mode symbol `o`, on an in-bounds world with
`gameOver` false, the mode flags change and `UpdatePositions` is applied as
well: the world after the tick is the one the step returns for the no-input
symbol, so the head follows the remembered direction. -/
theorem toggle_tick_steps_world (m : Machine) (e : Event)
    (hR : m.phase = Phase.Running)
    (hc : m.currentChar = BLOCKING_CHAR ∨ m.currentChar = COMMAND_CHAR)
    (hg : m.world.gameOver = false) (hd : due m e = true) (hb : InBounds m.world) :
    ∃ w1 m1, UpdatePositions m.world NULL_CHAR e.rx e.ry = some w1 ∧
      UpdatePositions m.world m.currentChar e.rx e.ry = some w1 ∧
      step m e = some m1 ∧ m1.world = w1 ∧
      w1.head.pos = newHead m.world NULL_CHAR ∧
      m1.ticks = (m.ticks + 1) % UINT_MOD ∧
      (m.currentChar = BLOCKING_CHAR →
        m1.allowBackgroundProcessing = !m.allowBackgroundProcessing ∧
        m1.showCommandline = if m.currentCommand = RESUME then false else m.showCommandline) ∧
      (m.currentChar = COMMAND_CHAR →
        m1.allowBackgroundProcessing = false ∧
        m1.showCommandline = if m.currentCommand = RESUME then false else true) := by
  have hnd : ¬ isDirection m.currentChar := by
    rcases hc with h | h <;> rw [h] <;> decide
  have hnq : m.currentChar ≠ QUIT_CHAR := by
    rcases hc with h | h <;> rw [h] <;> decide
  obtain ⟨w1, h⟩ := UpdatePositions_defined m.world NULL_CHAR e.rx e.ry hb
  have S := UpdatePositions_some m.world NULL_CHAR e.rx e.ry w1 h
  have h1 : UpdatePositions m.world m.currentChar e.rx e.ry = some w1 := by
    rw [UpdatePositions_other m.world m.currentChar e.rx e.ry hnd]
    exact h
  have hst : step m e = some (readInput
      { m with world := w1, ticks := (m.ticks + 1) % UINT_MOD,
               allowBackgroundProcessing :=
                 if m.currentChar = COMMAND_CHAR then false
                 else if m.currentChar = BLOCKING_CHAR then !m.allowBackgroundProcessing
                 else m.allowBackgroundProcessing,
               showCommandline :=
                 if m.currentCommand = RESUME then false
                 else if m.currentChar = COMMAND_CHAR then true else m.showCommandline,
               startTimestamp := e.now, currentChar := NULL_CHAR, currentCommand := [] }
      e.input) := by
    simp only [step, hR, hnq, hg, hd, tick, h1, ne_eq, not_false_eq_true, and_self, if_true]
  obtain ⟨f1, f2, _, _, f5, f6, _⟩ := readInput_frame
      { m with world := w1, ticks := (m.ticks + 1) % UINT_MOD,
               allowBackgroundProcessing :=
                 if m.currentChar = COMMAND_CHAR then false
                 else if m.currentChar = BLOCKING_CHAR then !m.allowBackgroundProcessing
                 else m.allowBackgroundProcessing,
               showCommandline :=
                 if m.currentCommand = RESUME then false
                 else if m.currentChar = COMMAND_CHAR then true else m.showCommandline,
               startTimestamp := e.now, currentChar := NULL_CHAR, currentCommand := [] }
      e.input
  refine ⟨w1, _, h, h1, hst, f1, ?_, f2, ?_, ?_⟩
  · rw [S.head_eq]
  · intro hb1
    have hne : BLOCKING_CHAR ≠ COMMAND_CHAR := by decide
    rw [f5, f6]
    simp [hb1, hne]
  · intro hc1
    rw [f5, f6]
    simp [hc1]

/-- The due tick of `toggle_tick_steps_world` with the toggle symbol pending
on a world of three segments. -/
theorem toggle_tick_steps_world_witness :
    due { initMachine 9 9 0 with world := threeLong, currentChar := BLOCKING_CHAR }
      ⟨100, 2, 2, []⟩ = true ∧
    InBounds threeLong ∧
    ∃ w1 m1, UpdatePositions threeLong NULL_CHAR 2 2 = some w1 ∧
      UpdatePositions threeLong BLOCKING_CHAR 2 2 = some w1 ∧
      step { initMachine 9 9 0 with world := threeLong, currentChar := BLOCKING_CHAR }
        ⟨100, 2, 2, []⟩ = some m1 ∧
      m1.world = w1 ∧ w1.head.pos = newHead threeLong NULL_CHAR :=
  ⟨by decide, by decide, by
    obtain ⟨w1, m1, h1, h2, h3, h4, h5, _⟩ :=
      toggle_tick_steps_world
        { initMachine 9 9 0 with world := threeLong, currentChar := BLOCKING_CHAR }
        ⟨100, 2, 2, []⟩ rfl (Or.inl rfl) rfl (by decide) (by decide)
    exact ⟨w1, m1, h1, h2, h3, h4, h5⟩⟩

end Snakie
